import Mathlib

/-!
Verification development for the pdf-names-indexer repository.

The program (src/pdf_names_indexer.py) reads a list of names, scans the
per-page text of a PDF document, and writes an index of the pages on which
each name occurs.  This file gives a shallow embedding of its core string
processing: strings are modelled as `List Char`, Python's `str.replace`
as a left-to-right non-overlapping replacement function, the compiled
word-boundary regular expressions as an executable literal matcher, and
the page scan as a fold over the list of extracted page texts.  PDF text
extraction itself is external; a page is modelled as either its extracted
text or an extraction error (`Except Unit`).
-/

/-- Strings are modelled as lists of characters. -/
abbrev Str := List Char

/-- Boolean test that `p` is a prefix of `s` (character-by-character). -/
def pfx : Str → Str → Bool
  | [], _ => true
  | _ :: _, [] => false
  | a :: as, b :: bs => a = b && pfx as bs

/-- Boolean test that `pat` occurs as a contiguous substring of `s`
(Python's `pat in s`). -/
def containsSub (pat : Str) : Str → Bool
  | [] => pfx pat []
  | s@(_ :: cs) => pfx pat s || containsSub pat cs

/-- Fuel-indexed version of Python's `str.replace`: scan `s` left to right,
replacing each non-overlapping occurrence of `pat` by `rep`.  The fuel only
makes the recursion structural; `fuel = s.length` always suffices because
each step consumes at least one character of `s`. -/
def pyReplaceF (pat rep : Str) : Nat → Str → Str
  | _, [] => []
  | 0, s => s
  | fuel + 1, c :: cs =>
    if pat ≠ [] ∧ pfx pat (c :: cs) = true then
      rep ++ pyReplaceF pat rep fuel ((c :: cs).drop pat.length)
    else
      c :: pyReplaceF pat rep fuel cs

/-- Python's `s.replace(pat, rep)` (for the non-empty patterns the program uses). -/
def pyReplace (pat rep s : Str) : Str := pyReplaceF pat rep s.length s

/-- The double-space string whose occurrences the flattening loop collapses. -/
def twoSpaces : Str := [' ', ' ']

/-- Fuel-indexed version of the `while "  " in text` loop of `_flatten_text`.
Each iteration strictly shrinks the text, so `fuel = s.length` suffices. -/
def collapseSpacesF : Nat → Str → Str
  | 0, s => s
  | fuel + 1, s =>
    if containsSub twoSpaces s then collapseSpacesF fuel (pyReplace twoSpaces [' '] s)
    else s

/-- The `while "  " in text: text = text.replace("  ", " ")` loop of the source. -/
def collapseSpaces (s : Str) : Str := collapseSpacesF s.length s

/-- The apostrophe character (written by code point to keep sources plain). -/
def apostrophe : Char := Char.ofNat 39

/-- The three characters of the mis-decoded right single quote that
`_simplify_text` repairs (U+00E2, U+20AC, U+2122). -/
def rsqArtifact : Str := [Char.ofNat 226, Char.ofNat 8364, Char.ofNat 8482]

/-- Embedding of `_simplify_text`: replace the mis-decoded right-single-quote
sequence by a plain apostrophe. -/
def _simplify_text (text : Str) : Str := pyReplace rsqArtifact [apostrophe] text

/-- Embedding of `_flatten_text`: drop hyphen-line-break pairs, turn remaining
line breaks into spaces, then collapse runs of spaces. -/
def _flatten_text (text : Str) : Str :=
  collapseSpaces (pyReplace ['\n'] [' '] (pyReplace ['-', '\n'] [] text))

/-- Word-constituent characters of the matcher, the ASCII fragment of the
regular-expression class used by the compiled patterns: digits, latin
letters and the underscore. -/
def isWordChar (c : Char) : Bool :=
  decide ((48 ≤ c.toNat ∧ c.toNat ≤ 57) ∨ (65 ≤ c.toNat ∧ c.toNat ≤ 90) ∨
    (97 ≤ c.toNat ∧ c.toNat ≤ 122) ∨ c.toNat = 95)

/-- Case folding used when the patterns are compiled case-insensitively
(ASCII fragment of Python's case-insensitive matching). -/
def foldCase (ci : Bool) (c : Char) : Char := if ci then c.toLower else c

/-- Whether position `i` of `s` holds a word character (out of range counts
as a non-word position). -/
def isWordAt (s : Str) (i : Nat) : Bool :=
  match s[i]? with
  | some c => isWordChar c
  | none => false

/-- Word-boundary test of the regular-expression engine at position `i` of
`s`: the position between `s[i-1]` and `s[i]` is a boundary when exactly one
of the two sides is a word character (the start and end of the string count
as non-word sides). -/
def boundaryAt (s : Str) (i : Nat) : Bool :=
  (if i = 0 then false else isWordAt s (i - 1)) != isWordAt s i

/-- The escaped literal `pat` matches in `s` at position `i` (up to case
folding when `ci` is set). -/
def matchesAt (ci : Bool) (pat s : Str) (i : Nat) : Bool :=
  pfx (pat.map (foldCase ci)) ((s.drop i).map (foldCase ci))

/-- Embedding of the compiled pattern search of `_parse_names`:
`re.compile(rf"\b[escaped name]\b", flags).search(text)` succeeds iff the
name occurs literally (the name is escaped, so it is never treated as a
pattern) at some position of `text` that is delimited by word boundaries
on both sides; `ci` is the `re.IGNORECASE` flag. -/
def matchName (ci : Bool) (pat s : Str) : Bool :=
  (List.range (s.length + 1)).any fun i =>
    boundaryAt s i && matchesAt ci pat s i && boundaryAt s (i + pat.length)

/-- Python's `str.lower` on a string (ASCII fragment), as used for the
duplicate-lookup key `name.lower()` of `_get_names`. -/
def lowerStr (s : Str) : Str := s.map Char.toLower

/-- The lookup key of a name in `_get_names`: lower-cased iff the search is
case-insensitive. -/
def keyOf (ci : Bool) (n : Str) : Str := if ci then lowerStr n else n

/-- Characters stripped by Python's `str.strip` (ASCII whitespace). -/
def isPySpace (c : Char) : Bool :=
  c = ' ' || c = Char.ofNat 9 || c = Char.ofNat 10 || c = Char.ofNat 11 ||
    c = Char.ofNat 12 || c = Char.ofNat 13

/-- Python's `line.strip()`: drop leading and trailing whitespace. -/
def pyStrip (s : Str) : Str :=
  ((s.dropWhile isPySpace).reverse.dropWhile isPySpace).reverse

/-- Adding an element to a Python `set` modelled as a duplicate-free list. -/
def setAdd (l : List Str) (x : Str) : List Str := if x ∈ l then l else l ++ [x]

/-- Lexicographic comparison of strings by code point, Python's `<=` on `str`. -/
def lexLe : Str → Str → Bool
  | [], _ => true
  | _ :: _, [] => false
  | a :: as, b :: bs => if a < b then true else if b < a then false else lexLe as bs

/-- Insertion into a `lexLe`-sorted list. -/
def insertLex (x : Str) : List Str → List Str
  | [] => [x]
  | y :: ys => if lexLe x y then x :: y :: ys else y :: insertLex x ys

/-- Sorting a list of strings lexicographically, modelling Python's
`list.sort()` / `sorted` on strings (the program only sorts lists of
pairwise-distinct strings, so any correct sort yields the same list). -/
def sortLex : List Str → List Str
  | [] => []
  | x :: xs => insertLex x (sortLex xs)

/-- Loop body of `_get_names`: strip and simplify each line, skip empty
results, test the lookup key against `uniqueNames`, and either record a
duplicate or append to the name list.  Note that, exactly as in the source,
`uniqueNames` is never extended: the source initializes `unique_names =
set()` and tests `unique_name in unique_names` but contains no
`unique_names.add(...)`, so the membership test is always against the
initial set. -/
def getNamesGo (ci : Bool) : List Str → List Str → List Str → List Str → List Str × List Str
  | [], names, _uniqueNames, duplicates => (names, duplicates)
  | line :: rest, names, uniqueNames, duplicates =>
    let name := _simplify_text (pyStrip line)
    if name = [] then getNamesGo ci rest names uniqueNames duplicates
    else if keyOf ci name ∈ uniqueNames then
      getNamesGo ci rest names uniqueNames (setAdd duplicates name)
    else getNamesGo ci rest (names ++ [name]) uniqueNames duplicates

/-- Embedding of `_get_names`: read names from the lines of the names file,
returning the name list (sorted when `sort` is set) and the sorted
duplicates list. -/
def _get_names (lines : List Str) (sort ci : Bool) : List Str × List Str :=
  let r := getNamesGo ci lines [] [] []
  ((if sort then sortLex r.1 else r.1), sortLex r.2)

/-- The normalization applied to each page text on line 100 of the source:
`_simplify_text(text=_flatten_text(text=text))`. -/
def normText (s : Str) : Str := _simplify_text (_flatten_text s)

/-- The occurrence mapping `name2pages`: an insertion-ordered association
list from names to their recorded page-number lists, modelling the
`collections.defaultdict(list)` of `_parse_names`.  Page numbers are `Int`
because the previous-page tracker starts at `-1`. -/
abbrev PageMap := List (Str × List Int)

/-- Lookup `name2pages.get(name, [])`: find a name, defaulting to the empty list. -/
def ddGet : PageMap → Str → List Int
  | [], _ => []
  | (k, v) :: rest, key => if k = key then v else ddGet rest key

/-- Append `name2pages[name].append(p)` on the defaultdict: append to the existing
entry, or create a new entry holding `[p]`. -/
def ddAppend : PageMap → Str → Int → PageMap
  | [], key, p => [(key, [p])]
  | (k, v) :: rest, key, p =>
    if k = key then (k, v ++ [p]) :: rest else (k, v) :: ddAppend rest key p

/-- Plain-dict lookup (`name2pages[name]` on a dict built by comprehension):
`none` models a `KeyError`. -/
def assocFind? : PageMap → Str → Option (List Int)
  | [], _ => none
  | (k, v) :: rest, key => if k = key then some v else assocFind? rest key

/-- Key list of the `name2pattern` dict: input names deduplicated keeping
first occurrences (re-inserting an existing key does not move it, and equal
names compile to the same pattern). -/
def dedupKeepGo (seen : List Str) : List Str → List Str
  | [] => []
  | n :: rest =>
    if n ∈ seen then dedupKeepGo seen rest else n :: dedupKeepGo (n :: seen) rest

/-- Deduplication of the names iterated by `_parse_names`. -/
def dedupKeep (names : List Str) : List Str := dedupKeepGo [] names

/-- Body of the inner `for name, pattern in name2pattern.items()` loop of
`_parse_names` (source lines 102-111) for a single name: search the current
page's text, and otherwise — when the previous page is not already recorded
for the name — search the concatenation of the previous and current page
texts, recording a hit under the previous page number.  Only the in-page
branch increments the occurrence count. -/
def stepName (ci : Bool) (pPrev : Int) (tPrev tCur : Str) (pCur : Int)
    (st : PageMap × Nat) (name : Str) : PageMap × Nat :=
  if matchName ci name tCur = true then (ddAppend st.1 name pCur, st.2 + 1)
  else if pPrev ∉ ddGet st.1 name ∧ matchName ci name (tPrev ++ tCur) = true then
    (ddAppend st.1 name pPrev, st.2)
  else st

/-- Processing of one page of `_parse_names`: run `stepName` over every
pattern of the name dictionary. -/
def processPage (ci : Bool) (dictNames : List Str) (pPrev : Int) (tPrev tCur : Str)
    (pCur : Int) (st : PageMap × Nat) : PageMap × Nat :=
  dictNames.foldl (stepName ci pPrev tPrev tCur pCur) st

/-- The exceptions the embedded functions can raise: a PDF extraction
failure propagating out of the page iterator, or a `KeyError` from a
plain-dict lookup in `_write_output`. -/
inductive PyErr where
  | extraction
  | keyError
deriving DecidableEq

/-- The page loop of `_parse_names` (`for page_nr, text in enumerate(..., start=1)`):
pages are consumed in order; an extraction error aborts the whole scan.
State: remaining pages, `page_nr_prev`, `text_prev` (already normalized),
the `(name2pages, count)` pair, and the current page number. -/
def parseNamesGo (ci : Bool) (dictNames : List Str) :
    List (Except Unit Str) → Int → Str → PageMap × Nat → Int → Except PyErr (PageMap × Nat)
  | [], _, _, st, _ => Except.ok st
  | Except.error _ :: _, _, _, _, _ => Except.error PyErr.extraction
  | Except.ok raw :: rest, pPrev, tPrev, st, pCur =>
    parseNamesGo ci dictNames rest pCur (normText raw)
      (processPage ci dictNames pPrev tPrev (normText raw) pCur st) (pCur + 1)

/-- Embedding of `_parse_names`: build the patterns (the dict keys are the
deduplicated names; the pattern itself is determined by the name and the
case flag, so it needs no separate representation), then scan the pages
starting from `page_nr_prev = -1`, `text_prev = ""`, `count = 0`, page 1. -/
def _parse_names (pages : List (Except Unit Str)) (names : List Str) (ci : Bool) :
    Except PyErr (PageMap × Nat) :=
  parseNamesGo ci (dedupKeep names) pages (-1) [] ([], 0) 1

/-- Total number of (name, page) pairs recorded in an occurrence mapping. -/
def totalPairs (m : PageMap) : Nat := (m.map fun kv => kv.2.length).sum

/-- Number of names whose pattern matches a page's own normalized text (the
only situation in which the source increments `count`). -/
def inPageHits (ci : Bool) (dictNames : List Str) : Except Unit Str → Nat
  | Except.ok raw => (dictNames.filter fun n => matchName ci n (normText raw)).length
  | Except.error _ => 0

/-- Total number of in-page pattern hits over a page sequence. -/
def inPageCount (ci : Bool) (names : List Str) (pages : List (Except Unit Str)) : Nat :=
  (pages.map (inPageHits ci (dedupKeep names))).sum

/-- Decimal digit character. -/
def digitChar (n : Nat) : Char := Char.ofNat (48 + n)

/-- Decimal digits of a natural number (fuel-indexed; `fuel = n + 1` suffices). -/
def natDigitsF : Nat → Nat → Str
  | 0, _ => []
  | fuel + 1, n => if n < 10 then [digitChar n] else natDigitsF fuel (n / 10) ++ [digitChar (n % 10)]

/-- Python's `str(n)` for a natural number. -/
def natStr (n : Nat) : Str := natDigitsF (n + 1) n

/-- Python's `str(i)` for an integer. -/
def intStr (i : Int) : Str := if i < 0 then '-' :: natStr i.natAbs else natStr i.natAbs

/-- Python's `sep.join(parts)`. -/
def joinSep (sep : Str) : List Str → Str
  | [] => []
  | [x] => x
  | x :: xs => x ++ sep ++ joinSep sep xs

/-- Loop of `_write_output`: for each name look up its pages (`none` models
a `KeyError`, which aborts the write), skip names with an empty page list
into the not-found list, and emit one formatted line per found name.
Returns the emitted output lines and the not-found names reported to the
diagnostic stream. -/
def writeOutputGo (sep psep pre : Str) (lookup : Str → Option (List Int)) :
    List Str → List Str → List Str → Except PyErr (List Str × List Str)
  | [], lines, notFound => Except.ok (lines, notFound)
  | name :: rest, lines, notFound =>
    match lookup name with
    | none => Except.error PyErr.keyError
    | some pages =>
      if pages = [] then writeOutputGo sep psep pre lookup rest lines (notFound ++ [name])
      else writeOutputGo sep psep pre lookup rest
        (lines ++ [name ++ sep ++ joinSep psep (pages.map fun p => pre ++ intStr p)]) notFound

/-- Embedding of `_write_output`. -/
def _write_output (names : List Str) (lookup : Str → Option (List Int)) (sep psep pre : Str) :
    Except PyErr (List Str × List Str) :=
  writeOutputGo sep psep pre lookup names [] []

/-- Embedding of `index_names`: load the names, scan the pages (writing to
the output stream happens only in `_write_output`, after `_parse_names` has
consumed every page, so an extraction error yields an error with no output
lines), apply the page offset, and write the result.  When `page_offset` is
nonzero the source rebuilds `name2pages` as a *plain* dict by comprehension
over the recorded entries, so the later `name2pages[name]` lookup is partial;
when it is zero the defaultdict is kept and the lookup never fails. -/
def index_names (nameLines : List Str) (pages : List (Except Unit Str)) (sort ci : Bool)
    (sep psep pre : Str) (page_offset : Int) : Except PyErr (List Str × List Str) :=
  let names := (_get_names nameLines sort ci).1
  match _parse_names pages names ci with
  | Except.error e => Except.error e
  | Except.ok (n2p, _count) =>
    if page_offset ≠ 0 then
      _write_output names
        (fun n => (assocFind? n2p n).map (List.map fun p => p + page_offset)) sep psep pre
    else
      _write_output names (fun n => some (ddGet n2p n)) sep psep pre

/-- Modelled from the spec: one entry of a pages-included specification.
The class `PagesIncludedSpecs` is referenced by the repository's tests
(`TestAux.test_pages_included` in tests/test_indexer.py) but its
implementation is not among the sources; spec section 4.4 describes the
compact syntax: a comma-separated list whose entries are either a single
integer (an exact page) or an inclusive range `A..B` with `A ≤ B`. -/
inductive PageSpecItem where
  | exact (n : Nat)
  | range (lo hi : Nat)
deriving DecidableEq

/-- Modelled from the spec: parse a non-empty all-digit string as a page
number; anything else is a malformed (fatal) entry. -/
def parseNatDigits? (s : Str) : Option Nat :=
  if s ≠ [] ∧ s.all (fun c => decide (48 ≤ c.toNat ∧ c.toNat ≤ 57)) then
    some (s.foldl (fun acc c => 10 * acc + (c.toNat - 48)) 0)
  else none

/-- Modelled from the spec: split the specification on commas. -/
def splitOnComma : Str → List Str
  | [] => [[]]
  | c :: cs =>
    let r := splitOnComma cs
    if c = ',' then [] :: r
    else
      match r with
      | [] => [[c]]
      | h :: t => (c :: h) :: t

/-- Modelled from the spec: split an entry at its first `..` separator, if any. -/
def splitRange? : Str → Option (Str × Str)
  | [] => none
  | c :: cs =>
    if pfx ['.', '.'] (c :: cs) = true then some ([], cs.drop 1)
    else (splitRange? cs).map fun p => (c :: p.1, p.2)

/-- Modelled from the spec: parse one entry of the specification — an exact
page number, or an inclusive range `A..B` with integer bounds and `A ≤ B`;
a reversed range or a non-integer is malformed. -/
def parsePageItem? (s : Str) : Option PageSpecItem :=
  match splitRange? s with
  | none => (parseNatDigits? s).map PageSpecItem.exact
  | some (a, b) =>
    match parseNatDigits? a, parseNatDigits? b with
    | some lo, some hi => if lo ≤ hi then some (PageSpecItem.range lo hi) else none
    | _, _ => none

/-- Modelled from the spec: membership of a page number in one entry. -/
def itemMember (p : Nat) : PageSpecItem → Bool
  | PageSpecItem.exact n => decide (p = n)
  | PageSpecItem.range lo hi => decide (lo ≤ p ∧ p ≤ hi)

/-- Modelled from the spec: parse a whole pages-included specification;
`none` models the fatal configuration error on a malformed entry. -/
def parsePagesSpec? (s : Str) : Option (List PageSpecItem) :=
  (splitOnComma s).mapM parsePageItem?

/-- Modelled from the spec: the membership predicate of `PagesIncludedSpecs`,
whose implementation is missing from the sources.  An absent (`none`) or
empty specification includes every page; otherwise a page is included iff it
matches some parsed entry; a malformed specification is a fatal
configuration error (modelled as `none`). -/
def pagesIncluded (spec : Option Str) (p : Nat) : Option Bool :=
  match spec with
  | none => some true
  | some s =>
    if s = [] then some true
    else (parsePagesSpec? s).map fun items => items.any (itemMember p)

/-- The per-name effect of `stepName` on that name's recorded page list
(used to state how one page of the scan rewrites the occurrence mapping). -/
def stepEffect (ci : Bool) (pPrev : Int) (tPrev tCur : Str) (pCur : Int)
    (name : Str) (l : List Int) : List Int :=
  if matchName ci name tCur = true then l ++ [pCur]
  else if pPrev ∉ l ∧ matchName ci name (tPrev ++ tCur) = true then l ++ [pPrev]
  else l

theorem pfx_iff (p s : Str) : pfx p s = true ↔ ∃ t, s = p ++ t := by
  induction p generalizing s with
  | nil => simp [pfx]
  | cons a as ih =>
    cases s with
    | nil => simp [pfx]
    | cons b bs =>
      simp only [pfx, Bool.and_eq_true, decide_eq_true_eq, ih, List.cons_append,
        List.cons.injEq]
      constructor
      · rintro ⟨rfl, t, rfl⟩; exact ⟨t, rfl, rfl⟩
      · rintro ⟨t, rfl, rfl⟩; exact ⟨rfl, t, rfl⟩

theorem containsSub_mem {pat s : Str} (h : containsSub pat s = true) :
    ∀ c ∈ pat, c ∈ s := by
  induction s with
  | nil =>
    simp only [containsSub, pfx_iff] at h
    obtain ⟨t, ht⟩ := h
    rcases List.append_eq_nil.mp ht.symm with ⟨rfl, -⟩
    intro c hc; cases hc
  | cons b bs ih =>
    simp only [containsSub, Bool.or_eq_true] at h
    rcases h with h | h
    · obtain ⟨t, ht⟩ := (pfx_iff _ _).mp h
      intro c hc
      rw [ht]
      exact List.mem_append.mpr (Or.inl hc)
    · intro c hc
      exact List.mem_cons_of_mem _ (ih h c hc)

theorem pyReplaceF_of_not_contains {pat rep : Str} {s : Str}
    (h : containsSub pat s = false) : ∀ fuel, pyReplaceF pat rep fuel s = s := by
  induction s with
  | nil => intro fuel; cases fuel <;> rfl
  | cons c cs ih =>
    intro fuel
    cases fuel with
    | zero => rfl
    | succ fuel =>
      simp only [containsSub, Bool.or_eq_false_iff] at h
      simp only [pyReplaceF]
      rw [if_neg (by simp [h.1]), ih h.2]

theorem mem_pyReplaceF {pat rep : Str} {s : Str} {c : Char} {fuel : Nat}
    (h : c ∈ pyReplaceF pat rep fuel s) : c ∈ s ∨ c ∈ rep := by
  induction fuel generalizing s with
  | zero =>
    cases s with
    | nil => cases h
    | cons b bs => exact Or.inl h
  | succ fuel ih =>
    cases s with
    | nil => cases h
    | cons b bs =>
      simp only [pyReplaceF] at h
      split at h
      · rcases List.mem_append.mp h with h | h
        · exact Or.inr h
        · rcases ih h with h | h
          · exact Or.inl (List.mem_of_mem_drop h)
          · exact Or.inr h
      · rcases List.mem_cons.mp h with rfl | h
        · exact Or.inl (List.mem_cons_self _ _)
        · rcases ih h with h | h
          · exact Or.inl (List.mem_cons_of_mem _ h)
          · exact Or.inr h

theorem mem_pyReplaceF_single {a : Char} {rep : Str} {s : Str} {c : Char} {fuel : Nat}
    (hfuel : s.length ≤ fuel) (h : c ∈ pyReplaceF [a] rep fuel s) :
    c ∈ rep ∨ (c ∈ s ∧ c ≠ a) := by
  induction fuel generalizing s with
  | zero =>
    interval_cases hs : s.length
    rcases List.length_eq_zero.mp hs with rfl
    cases h
  | succ fuel ih =>
    cases s with
    | nil => cases h
    | cons b bs =>
      simp only [pyReplaceF] at h
      by_cases hab : a = b
      · subst hab
        rw [if_pos (by simp [pfx])] at h
        simp only [List.length_cons, List.length_nil, List.drop_succ_cons,
          List.drop_zero, Nat.zero_add] at h
        rcases List.mem_append.mp h with h | h
        · exact Or.inl h
        · rcases ih (by simp only [List.length_cons] at hfuel; omega) h with h | h
          · exact Or.inl h
          · exact Or.inr ⟨List.mem_cons_of_mem _ h.1, h.2⟩
      · rw [if_neg (by simp [pfx, hab])] at h
        rcases List.mem_cons.mp h with rfl | h
        · exact Or.inr ⟨List.mem_cons_self _ _, fun hc => hab hc.symm⟩
        · rcases ih (by simp only [List.length_cons] at hfuel; omega) h with h | h
          · exact Or.inl h
          · exact Or.inr ⟨List.mem_cons_of_mem _ h.1, h.2⟩

theorem length_pyReplaceF_le {pat rep : Str} (hlen : rep.length ≤ pat.length) :
    ∀ (fuel : Nat) (s : Str), (pyReplaceF pat rep fuel s).length ≤ s.length := by
  intro fuel
  induction fuel with
  | zero =>
    intro s; cases s <;> simp [pyReplaceF]
  | succ fuel ih =>
    intro s
    cases s with
    | nil => simp [pyReplaceF]
    | cons c cs =>
      simp only [pyReplaceF]
      split
      · rename_i hcond
        obtain ⟨t, ht⟩ := (pfx_iff _ _).mp hcond.2
        have hple : pat.length ≤ (c :: cs).length := by
          rw [ht]; simp
        have := ih ((c :: cs).drop pat.length)
        simp only [List.length_append, List.length_drop] at *
        omega
      · simpa using ih cs

theorem length_pyReplaceF_lt {pat rep : Str} (hlen : rep.length < pat.length) :
    ∀ (fuel : Nat) (s : Str), containsSub pat s = true → s.length ≤ fuel →
      (pyReplaceF pat rep fuel s).length < s.length := by
  intro fuel
  induction fuel with
  | zero =>
    intro s hc hf
    rcases List.length_eq_zero.mp (Nat.le_zero.mp hf) with rfl
    simp only [containsSub, pfx_iff] at hc
    obtain ⟨t, ht⟩ := hc
    rcases List.append_eq_nil.mp ht.symm with ⟨rfl, -⟩
    exact absurd hlen (by simp)
  | succ fuel ih =>
    intro s hc hf
    cases s with
    | nil =>
      simp only [containsSub, pfx_iff] at hc
      obtain ⟨t, ht⟩ := hc
      rcases List.append_eq_nil.mp ht.symm with ⟨rfl, -⟩
      exact absurd hlen (by simp)
    | cons c cs =>
      simp only [pyReplaceF]
      by_cases hp : pfx pat (c :: cs) = true
      · rw [if_pos ⟨by rintro rfl; simp at hlen, hp⟩]
        obtain ⟨t, ht⟩ := (pfx_iff _ _).mp hp
        have hple : pat.length ≤ (c :: cs).length := by rw [ht]; simp
        have := length_pyReplaceF_le (le_of_lt hlen) fuel ((c :: cs).drop pat.length)
        simp only [List.length_append, List.length_drop] at *
        omega
      · rw [if_neg (by simp [hp])]
        have hcs : containsSub pat cs = true := by
          simp only [containsSub, Bool.or_eq_true] at hc
          rcases hc with hc | hc
          · exact absurd hc hp
          · exact hc
        have := ih cs hcs (by simp only [List.length_cons] at hf; omega)
        simp only [List.length_cons]
        omega

theorem collapseSpacesF_no_twoSpaces :
    ∀ (fuel : Nat) (s : Str), s.length ≤ fuel →
      containsSub twoSpaces (collapseSpacesF fuel s) = false := by
  intro fuel
  induction fuel with
  | zero =>
    intro s hf
    rcases List.length_eq_zero.mp (Nat.le_zero.mp hf) with rfl
    simp [collapseSpacesF, containsSub, pfx, twoSpaces]
  | succ fuel ih =>
    intro s hf
    simp only [collapseSpacesF]
    split
    · rename_i hc
      apply ih
      have := @length_pyReplaceF_lt twoSpaces [' ']
        (by simp [twoSpaces]) s.length s hc le_rfl
      simp only [pyReplace]
      omega
    · rename_i hc
      exact Bool.not_eq_true _ ▸ (by simpa using hc)

theorem collapseSpacesF_of_not_contains {s : Str}
    (h : containsSub twoSpaces s = false) (fuel : Nat) : collapseSpacesF fuel s = s := by
  cases fuel with
  | zero => rfl
  | succ fuel => simp [collapseSpacesF, h]

theorem mem_collapseSpacesF {s : Str} {c : Char} {fuel : Nat}
    (h : c ∈ collapseSpacesF fuel s) : c ∈ s ∨ c = ' ' := by
  induction fuel generalizing s with
  | zero => exact Or.inl h
  | succ fuel ih =>
    simp only [collapseSpacesF] at h
    split at h
    · rcases ih h with h | h
      · rcases mem_pyReplaceF h with h | h
        · exact Or.inl h
        · rcases List.mem_singleton.mp h with rfl
          exact Or.inr rfl
      · exact Or.inr h
    · exact Or.inl h

theorem newline_not_mem_flatten (t : Str) : '\n' ∉ _flatten_text t := by
  intro hmem
  unfold _flatten_text at hmem
  rcases mem_collapseSpacesF hmem with h | h
  · rcases mem_pyReplaceF_single le_rfl h with h | h
    · simp at h
    · exact h.2 rfl
  · cases h

theorem flatten_of_clean {s : Str} (hnl : '\n' ∉ s)
    (hsp : containsSub twoSpaces s = false) : _flatten_text s = s := by
  unfold _flatten_text
  have h1 : containsSub ['-', '\n'] s = false := by
    by_contra h
    exact hnl (containsSub_mem (Bool.not_eq_false _ ▸ h) '\n' (by simp))
  have h2 : containsSub ['\n'] s = false := by
    by_contra h
    exact hnl (containsSub_mem (Bool.not_eq_false _ ▸ h) '\n' (by simp))
  rw [show pyReplace ['-', '\n'] [] s = s from pyReplaceF_of_not_contains h1 _,
    show pyReplace ['\n'] [' '] s = s from pyReplaceF_of_not_contains h2 _,
    show collapseSpaces s = s from collapseSpacesF_of_not_contains hsp _]

/-- C10: applying the whitespace-flattening step `_flatten_text` twice yields
the same result as applying it once, for every string. -/
theorem flatten_text_idem (t : Str) : _flatten_text (_flatten_text t) = _flatten_text t := by
  apply flatten_of_clean (newline_not_mem_flatten t)
  unfold _flatten_text collapseSpaces
  exact collapseSpacesF_no_twoSpaces _ _ le_rfl

theorem char_toNat_ofNat {n : Nat} (h : n.isValidChar) : (Char.ofNat n).toNat = n := by
  simp [Char.ofNat, h, Char.ofNatAux, Char.toNat, UInt32.toNat, BitVec.toNat_ofNatLt]

theorem isWordChar_toLower (c : Char) : isWordChar c.toLower = isWordChar c := by
  have hdef : c.toLower = if c.toNat ≥ 65 ∧ c.toNat ≤ 90 then Char.ofNat (c.toNat + 32) else c :=
    rfl
  rw [hdef]
  split
  · rename_i h
    have hv : (c.toNat + 32).isValidChar := Or.inl (by omega)
    unfold isWordChar
    rw [char_toNat_ofNat hv]
    simp only [decide_eq_decide]
    omega
  · rfl

theorem isWordChar_foldCase (ci : Bool) (c : Char) :
    isWordChar (foldCase ci c) = isWordChar c := by
  cases ci with
  | false => rfl
  | true => exact isWordChar_toLower c

theorem word_of_foldCase_map {ci : Bool} {m name : Str}
    (hmap : m.map (foldCase ci) = name.map (foldCase ci))
    (hw : ∀ c ∈ name, isWordChar c = true) : ∀ c ∈ m, isWordChar c = true := by
  induction m generalizing name with
  | nil => intro c hc; cases hc
  | cons a as ih =>
    cases name with
    | nil => cases hmap
    | cons b bs =>
      simp only [List.map_cons, List.cons.injEq] at hmap
      intro c hc
      rcases List.mem_cons.mp hc with rfl | hc
      · calc isWordChar c = isWordChar (foldCase ci c) := (isWordChar_foldCase ci c).symm
          _ = isWordChar (foldCase ci b) := by rw [hmap.1]
          _ = isWordChar b := isWordChar_foldCase ci b
          _ = true := hw b (List.mem_cons_self _ _)
      · exact ih hmap.2 (fun x hx => hw x (List.mem_cons_of_mem _ hx)) c hc

theorem length_eq_of_foldCase_map {ci : Bool} {m name : Str}
    (hmap : m.map (foldCase ci) = name.map (foldCase ci)) : m.length = name.length := by
  have := congrArg List.length hmap
  simpa using this

theorem ne_nil_of_foldCase_map {ci : Bool} {m name : Str}
    (hmap : m.map (foldCase ci) = name.map (foldCase ci)) (hne : name ≠ []) : m ≠ [] := by
  intro h
  subst h
  cases name with
  | nil => exact hne rfl
  | cons b bs => cases hmap

/-- C2: word-boundary literal matching.  The compiled matcher records a hit
on a text exactly when the (escaped, hence literal) name occurs in the text,
up to case folding, with no word character immediately before or after the
occurrence.  In particular a name occurring only inside a longer word is not
a hit, while a standalone occurrence flanked by punctuation, apostrophes,
spaces or the ends of the text is. -/
theorem matchName_word_boundary (ci : Bool) (name s : Str) (hne : name ≠ [])
    (hw : ∀ c ∈ name, isWordChar c = true) :
    matchName ci name s = true ↔
      ∃ a m b, s = a ++ m ++ b ∧ m.map (foldCase ci) = name.map (foldCase ci) ∧
        (∀ c, a.getLast? = some c → isWordChar c = false) ∧
        (∀ c, b.head? = some c → isWordChar c = false) := by
  constructor
  · intro h
    obtain ⟨i, hir, hcond⟩ := List.any_eq_true.mp h
    have hi : i ≤ s.length := Nat.lt_succ_iff.mp (List.mem_range.mp hir)
    simp only [Bool.and_eq_true] at hcond
    obtain ⟨⟨hb1, hmat⟩, hb2⟩ := hcond
    obtain ⟨t, ht⟩ := (pfx_iff _ _).mp hmat
    -- carve the matched segment out of `s`
    set d := s.drop i with hd
    have hdlen : name.length ≤ d.length := by
      have := congrArg List.length ht
      simp only [List.length_map, List.length_append] at this
      omega
    have hmm : (d.take name.length).map (foldCase ci) = name.map (foldCase ci) := by
      rw [List.map_take, ht, ← List.length_map name (foldCase ci), List.take_left]
    refine ⟨s.take i, d.take name.length, d.drop name.length, ?_, hmm, ?_, ?_⟩
    · rw [List.append_assoc, List.take_append_drop, hd, List.take_append_drop]
    · -- no word character just before the occurrence
      intro c hc
      have halen : (s.take i).length = i := by simp [List.length_take, hi]
      have hi0 : i ≠ 0 := by
        intro h0
        rw [h0, List.take_zero] at hc
        simp at hc
      have hbound := hb1
      unfold boundaryAt at hbound
      rw [if_neg hi0] at hbound
      -- the right side of the boundary at `i` is a word character
      have hmword : ∀ x ∈ d.take name.length, isWordChar x = true :=
        word_of_foldCase_map hmm hw
      have hdne : d.take name.length ≠ [] := by
        intro hnil
        have hlth := congrArg List.length hnil
        simp only [List.length_take, List.length_nil] at hlth
        have hz : name.length = 0 := by omega
        exact hne (List.length_eq_zero.mp hz)
      have hright : isWordAt s i = true := by
        unfold isWordAt
        have : s[i]? = d[0]? := by
          conv_lhs => rw [← List.take_append_drop i s]
          rw [List.getElem?_append_right (by simp [List.length_take, hi]),
            List.length_take]
          congr 1
          omega
        rw [this]
        cases hdt : d with
        | nil =>
          rw [hdt] at hdlen
          cases name with
          | nil => exact absurd rfl hne
          | cons nc ncs => simp at hdlen
        | cons d0 ds =>
          simp only [List.getElem?_cons_zero]
          apply hmword
          rw [hdt]
          cases name with
          | nil => exact absurd rfl hne
          | cons nc ncs => simp [List.take_cons]
      rw [hright] at hbound
      have hleft : isWordAt s (i - 1) = false := by
        cases hlv : isWordAt s (i - 1) with
        | false => rfl
        | true => rw [hlv] at hbound; simp at hbound
      unfold isWordAt at hleft
      have : s[i - 1]? = (s.take i)[i - 1]? := by
        conv_lhs => rw [← List.take_append_drop i s]
        rw [List.getElem?_append_left (by rw [halen]; omega)]
      rw [this] at hleft
      rw [List.getLast?_eq_getElem?, halen] at hc
      rw [hc] at hleft
      exact hleft
    · -- no word character just after the occurrence
      intro c hc
      have halen : (s.take i).length = i := by simp [List.length_take, hi]
      have hmlen : (d.take name.length).length = name.length := by
        simp [List.length_take, hdlen]
      have hbound := hb2
      unfold boundaryAt at hbound
      have hnl : name.length ≠ 0 := by
        cases name with
        | nil => exact absurd rfl hne
        | cons nc ncs => simp
      rw [if_neg (by omega)] at hbound
      -- the left side of the boundary at `i + name.length` is a word character
      have hmword : ∀ x ∈ d.take name.length, isWordChar x = true :=
        word_of_foldCase_map hmm hw
      have hsplit : s = (s.take i ++ d.take name.length) ++ d.drop name.length := by
        rw [List.append_assoc, List.take_append_drop, hd, List.take_append_drop]
      have hleft : isWordAt s (i + name.length - 1) = true := by
        unfold isWordAt
        have hlen2 : (s.take i ++ d.take name.length).length = i + name.length := by
          simp [halen, hmlen]
        have : s[i + name.length - 1]? = (s.take i ++ d.take name.length).getLast? := by
          conv_lhs => rw [hsplit]
          rw [List.getElem?_append_left (by rw [hlen2]; omega),
            List.getLast?_eq_getElem?, hlen2]
        rw [this]
        have hdne : d.take name.length ≠ [] := by
          intro hnil
          have := congrArg List.length hnil
          rw [hmlen] at this
          simp at this
          exact hne this
        rw [List.getLast?_append]
        cases hg : (d.take name.length).getLast? with
        | none => exact absurd (List.getLast?_eq_none_iff.mp hg) hdne
        | some g =>
          simp only [Option.or_some]
          exact hmword g (List.mem_of_mem_getLast? hg)
      rw [hleft] at hbound
      have hright : isWordAt s (i + name.length) = false := by
        cases hrv : isWordAt s (i + name.length) with
        | false => rfl
        | true => rw [hrv] at hbound; simp at hbound
      unfold isWordAt at hright
      have hlen2 : (s.take i ++ d.take name.length).length = i + name.length := by
        simp [halen, hmlen]
      have : s[i + name.length]? = (d.drop name.length)[0]? := by
        conv_lhs => rw [hsplit]
        rw [List.getElem?_append_right (by rw [hlen2]), hlen2]
        congr 1
        omega
      rw [this, ← List.head?_eq_getElem?, hc] at hright
      exact hright
  · rintro ⟨a, m, b, rfl, hmap, hlast, hhead⟩
    have hmne : m ≠ [] := ne_nil_of_foldCase_map hmap hne
    have hmword : ∀ x ∈ m, isWordChar x = true := word_of_foldCase_map hmap hw
    have hmlen : m.length = name.length := length_eq_of_foldCase_map hmap
    apply List.any_eq_true.mpr
    refine ⟨a.length, List.mem_range.mpr (by simp; omega), ?_⟩
    simp only [Bool.and_eq_true]
    have hright : isWordAt (a ++ m ++ b) a.length = true := by
      unfold isWordAt
      have : (a ++ m ++ b)[a.length]? = (m ++ b)[0]? := by
        rw [List.append_assoc, List.getElem?_append_right le_rfl, Nat.sub_self]
      rw [this]
      cases hmt : m with
      | nil => exact absurd hmt hmne
      | cons m0 ms =>
        simp only [List.cons_append, List.getElem?_cons_zero]
        exact hmword m0 (by rw [hmt]; exact List.mem_cons_self _ _)
    refine ⟨⟨?_, ?_⟩, ?_⟩
    · -- boundary before the occurrence
      unfold boundaryAt
      rw [hright]
      by_cases ha : a.length = 0
      · rw [if_pos ha]; rfl
      · rw [if_neg ha]
        have hane : a ≠ [] := fun h => ha (by rw [h]; rfl)
        have hgl : ∃ g, a.getLast? = some g := by
          cases hg : a.getLast? with
          | none => exact absurd (List.getLast?_eq_none_iff.mp hg) hane
          | some g => exact ⟨g, rfl⟩
        obtain ⟨g, hg⟩ := hgl
        have : isWordAt (a ++ m ++ b) (a.length - 1) = false := by
          unfold isWordAt
          have : (a ++ m ++ b)[a.length - 1]? = a[a.length - 1]? := by
            rw [List.append_assoc, List.getElem?_append_left (by omega)]
          rw [this, ← List.getLast?_eq_getElem?, hg]
          exact hlast g hg
        rw [this]
        rfl
    · -- the literal matches at the occurrence
      unfold matchesAt
      rw [List.append_assoc, List.drop_left, List.map_append, ← hmap]
      exact (pfx_iff _ _).mpr ⟨List.map (foldCase ci) b, rfl⟩
    · -- boundary after the occurrence
      unfold boundaryAt
      have hnl : name.length ≠ 0 := by
        cases name with
        | nil => exact absurd rfl hne
        | cons nc ncs => simp
      rw [if_neg (by omega)]
      have hleft : isWordAt (a ++ m ++ b) (a.length + name.length - 1) = true := by
        unfold isWordAt
        have hlen2 : (a ++ m).length = a.length + name.length := by simp [hmlen]
        have : (a ++ m ++ b)[a.length + name.length - 1]? = (a ++ m).getLast? := by
          rw [List.getElem?_append_left (by rw [hlen2]; omega),
            List.getLast?_eq_getElem?, hlen2]
        rw [this, List.getLast?_append]
        cases hg : m.getLast? with
        | none => exact absurd (List.getLast?_eq_none_iff.mp hg) hmne
        | some g =>
          simp only [Option.or_some]
          exact hmword g (List.mem_of_mem_getLast? hg)
      rw [hleft]
      have hrightb : isWordAt (a ++ m ++ b) (a.length + name.length) = false := by
        unfold isWordAt
        have hlen2 : (a ++ m).length = a.length + name.length := by simp [hmlen]
        have : (a ++ m ++ b)[a.length + name.length]? = b[0]? := by
          rw [List.getElem?_append_right (by rw [hlen2]), hlen2, Nat.sub_self]
        rw [this, ← List.head?_eq_getElem?]
        cases hh : b.head? with
        | none => rfl
        | some h0 => exact hhead h0 hh
      rw [hrightb]
      rfl

theorem ddGet_ddAppend_same (m : PageMap) (k : Str) (p : Int) :
    ddGet (ddAppend m k p) k = ddGet m k ++ [p] := by
  induction m with
  | nil => simp [ddAppend, ddGet]
  | cons kv rest ih =>
    obtain ⟨k', v⟩ := kv
    by_cases h : k' = k
    · simp [ddAppend, ddGet, h]
    · simp [ddAppend, ddGet, h, ih]

theorem ddGet_ddAppend_other (m : PageMap) {k k' : Str} (p : Int) (hne : k' ≠ k) :
    ddGet (ddAppend m k p) k' = ddGet m k' := by
  induction m with
  | nil => simp [ddAppend, ddGet, Ne.symm hne]
  | cons kv rest ih =>
    obtain ⟨k0, v⟩ := kv
    by_cases h : k0 = k
    · subst h
      simp [ddAppend, ddGet, Ne.symm hne]
    · simp [ddAppend, ddGet, h, ih]

theorem ddGet_stepName_self (ci : Bool) (pPrev : Int) (tPrev tCur : Str) (pCur : Int)
    (st : PageMap × Nat) (n : Str) :
    ddGet (stepName ci pPrev tPrev tCur pCur st n).1 n =
      stepEffect ci pPrev tPrev tCur pCur n (ddGet st.1 n) := by
  unfold stepName stepEffect
  split_ifs with h1 h2
  · exact ddGet_ddAppend_same _ _ _
  · exact ddGet_ddAppend_same _ _ _
  · rfl

theorem ddGet_stepName_other (ci : Bool) (pPrev : Int) (tPrev tCur : Str) (pCur : Int)
    (st : PageMap × Nat) {n n' : Str} (hne : n' ≠ n) :
    ddGet (stepName ci pPrev tPrev tCur pCur st n).1 n' = ddGet st.1 n' := by
  unfold stepName
  split_ifs with h1 h2
  · exact ddGet_ddAppend_other _ _ hne
  · exact ddGet_ddAppend_other _ _ hne
  · rfl

theorem snd_stepName (ci : Bool) (pPrev : Int) (tPrev tCur : Str) (pCur : Int)
    (st : PageMap × Nat) (n : Str) :
    (stepName ci pPrev tPrev tCur pCur st n).2 =
      st.2 + (if matchName ci n tCur = true then 1 else 0) := by
  unfold stepName
  split_ifs with h1 h2 <;> rfl

theorem ddGet_foldl_stepName (ci : Bool) (pPrev : Int) (tPrev tCur : Str) (pCur : Int) :
    ∀ (ns : List Str) (st : PageMap × Nat) (n : Str), ns.Nodup →
      ddGet (List.foldl (stepName ci pPrev tPrev tCur pCur) st ns).1 n =
        if n ∈ ns then stepEffect ci pPrev tPrev tCur pCur n (ddGet st.1 n)
        else ddGet st.1 n := by
  intro ns
  induction ns with
  | nil => intro st n _; simp
  | cons n0 ns ih =>
    intro st n hnd
    rw [List.nodup_cons] at hnd
    simp only [List.foldl_cons]
    by_cases hn : n = n0
    · subst hn
      rw [ih _ _ hnd.2, if_neg hnd.1, if_pos (List.mem_cons_self _ _),
        ddGet_stepName_self]
    · rw [ih _ _ hnd.2, ddGet_stepName_other _ _ _ _ _ _ hn]
      by_cases hmem : n ∈ ns
      · rw [if_pos hmem, if_pos (List.mem_cons_of_mem _ hmem)]
      · rw [if_neg hmem, if_neg (by simp [hn, hmem])]

theorem snd_foldl_stepName (ci : Bool) (pPrev : Int) (tPrev tCur : Str) (pCur : Int) :
    ∀ (ns : List Str) (st : PageMap × Nat),
      (List.foldl (stepName ci pPrev tPrev tCur pCur) st ns).2 =
        st.2 + (ns.filter fun n => matchName ci n tCur).length := by
  intro ns
  induction ns with
  | nil => intro st; simp
  | cons n0 ns ih =>
    intro st
    simp only [List.foldl_cons]
    rw [ih, snd_stepName]
    by_cases h : matchName ci n0 tCur = true
    · rw [if_pos h, List.filter_cons_of_pos (by simpa using h)]
      simp only [List.length_cons]
      omega
    · rw [if_neg h, List.filter_cons_of_neg (by simpa using h)]
      omega

theorem dedupKeepGo_nodup : ∀ (l : List Str) (seen : List Str),
    (dedupKeepGo seen l).Nodup ∧ ∀ x ∈ dedupKeepGo seen l, x ∉ seen := by
  intro l
  induction l with
  | nil => intro seen; simp [dedupKeepGo]
  | cons n rest ih =>
    intro seen
    by_cases h : n ∈ seen
    · simp only [dedupKeepGo, if_pos h]
      exact ih seen
    · simp only [dedupKeepGo, if_neg h]
      obtain ⟨hnd, hout⟩ := ih (n :: seen)
      refine ⟨List.nodup_cons.mpr ⟨?_, hnd⟩, ?_⟩
      · intro hmem
        exact hout n hmem (List.mem_cons_self _ _)
      · intro x hx
        rcases List.mem_cons.mp hx with rfl | hx
        · exact h
        · intro hxs
          exact hout x hx (List.mem_cons_of_mem _ hxs)

theorem dedupKeep_nodup (names : List Str) : (dedupKeep names).Nodup :=
  (dedupKeepGo_nodup names []).1

/-- C1: cross-page boundary handling.  When the current page's text does not
match a name, the previous page is not already recorded for that name, but
the concatenation of the previous and current normalized page texts (with no
separator) does match, the scan appends the *previous* page number to the
name's list and does not add the current page; in particular, with page 1
text ending in "Pene", page 2 text starting with "lope" and search name
"Penelope", the whole scan records the name exactly under page 1. -/
theorem cross_page_boundary (ci : Bool) (pPrev pCur : Int) (tPrev tCur : Str)
    (st : PageMap × Nat) (name : Str)
    (hsucc : pPrev + 1 = pCur)
    (h1 : matchName ci name tCur = false)
    (h2 : pPrev ∉ ddGet st.1 name)
    (h3 : matchName ci name (tPrev ++ tCur) = true) :
    ddGet (stepName ci pPrev tPrev tCur pCur st name).1 name = ddGet st.1 name ++ [pPrev] ∧
    (pCur ∉ ddGet st.1 name → pCur ∉ ddGet (stepName ci pPrev tPrev tCur pCur st name).1 name) ∧
    _parse_names [Except.ok "aaa Pene".toList, Except.ok "lope bbb".toList]
      ["Penelope".toList] true = Except.ok ([("Penelope".toList, [1])], 0) := by
  have hkey : ddGet (stepName ci pPrev tPrev tCur pCur st name).1 name =
      ddGet st.1 name ++ [pPrev] := by
    unfold stepName
    rw [if_neg (by simp [h1]), if_pos ⟨h2, h3⟩]
    exact ddGet_ddAppend_same _ _ _
  refine ⟨hkey, ?_, rfl⟩
  intro hnc hmem
  rw [hkey] at hmem
  rcases List.mem_append.mp hmem with hmem | hmem
  · exact hnc hmem
  · rw [List.mem_singleton] at hmem
    omega

/-- C1 witness: the cross-page step at the concrete "Penelope" boundary. -/
theorem cross_page_boundary_witness :
    ddGet (stepName true 1 "aaa Pene".toList "lope bbb".toList 2 ([], 0)
      "Penelope".toList).1 "Penelope".toList = [] ++ [1] ∧
    ((2 : Int) ∉ ddGet ([] : PageMap) "Penelope".toList →
      (2 : Int) ∉ ddGet (stepName true 1 "aaa Pene".toList "lope bbb".toList 2 ([], 0)
        "Penelope".toList).1 "Penelope".toList) ∧
    _parse_names [Except.ok "aaa Pene".toList, Except.ok "lope bbb".toList]
      ["Penelope".toList] true = Except.ok ([("Penelope".toList, [1])], 0) :=
  cross_page_boundary true 1 2 "aaa Pene".toList "lope bbb".toList ([], 0)
    "Penelope".toList (by decide) (by decide) (by decide) (by decide)

/-- C2 witness: "Ann" is recorded as a hit in a text where it occurs as a
standalone token flanked by a space and a comma. -/
theorem matchName_word_boundary_witness :
    matchName true "Ann".toList "so Ann, said".toList = true :=
  (matchName_word_boundary true "Ann".toList "so Ann, said".toList
      (by decide) (by decide)).mpr
    ⟨"so ".toList, "Ann".toList, ", said".toList, by decide, rfl,
      by decide, by decide⟩

/-- C3: evaluation of the name loader at the deduplication example of the
spec.  The source creates `unique_names = set()` and tests membership in it
but never inserts into it, so no deduplication ever happens: with lines
["Ann", "Bob", "ann"] and case-insensitive mode the loader returns all three
names (sorted) and an empty duplicates list, not the claimed
(["Ann", "Bob"], ["ann"]). -/
theorem get_names_dedup_example :
    _get_names ["Ann".toList, "Bob".toList, "ann".toList] true true =
      (["Ann".toList, "Bob".toList, "ann".toList], []) ∧
    _get_names ["Ann".toList, "Bob".toList, "ann".toList] true true ≠
      (["Ann".toList, "Bob".toList], ["ann".toList]) := by
  exact ⟨rfl, by decide⟩

/-- C4 counterexample: on the two-page "Pene"/"lope" document with the single
name "Penelope", the scan records one (name, page) pair — via the boundary
check — but reports a running count of 0, because the source increments
`count` only in the in-page branch. -/
theorem count_diag_cex :
    _parse_names [Except.ok "aaa Pene".toList, Except.ok "lope bbb".toList]
      ["Penelope".toList] true = Except.ok ([("Penelope".toList, [1])], 0) ∧
    totalPairs [("Penelope".toList, [1])] = 1 ∧ (0 : Nat) ≠ 1 :=
  ⟨rfl, rfl, by decide⟩

theorem parseNamesGo_count (ci : Bool) (dictNames : List Str) :
    ∀ (rest : List (Except Unit Str)) (pPrev : Int) (tPrev : Str)
      (st : PageMap × Nat) (pCur : Int) (m : PageMap) (c : Nat),
      parseNamesGo ci dictNames rest pPrev tPrev st pCur = Except.ok (m, c) →
      c = st.2 + (rest.map (inPageHits ci dictNames)).sum := by
  intro rest
  induction rest with
  | nil =>
    intro pPrev tPrev st pCur m c h
    simp only [parseNamesGo] at h
    cases h
    simp
  | cons pg rest ih =>
    intro pPrev tPrev st pCur m c h
    cases pg with
    | error u => simp only [parseNamesGo] at h; simp at h
    | ok raw =>
      simp only [parseNamesGo] at h
      have := ih _ _ _ _ _ _ h
      rw [this]
      unfold processPage
      rw [snd_foldl_stepName]
      simp only [List.map_cons, List.sum_cons, inPageHits]
      omega

/-- C4 (amended): the running count reported by `_parse_names` equals the
number of (name, page) pairs recorded by matching a single page's own text;
pairs recorded via the cross-page boundary check are not counted. -/
theorem count_diag_amended (pages : List (Except Unit Str)) (names : List Str) (ci : Bool)
    (m : PageMap) (c : Nat) (h : _parse_names pages names ci = Except.ok (m, c)) :
    c = inPageCount ci names pages := by
  unfold _parse_names at h
  have := parseNamesGo_count ci (dedupKeep names) pages (-1) [] ([], 0) 1 m c h
  simpa [inPageCount] using this

/-- C4 witness: the amended count identity at the "Penelope" example. -/
theorem count_diag_amended_witness :
    (0 : Nat) = inPageCount true ["Penelope".toList]
      [Except.ok "aaa Pene".toList, Except.ok "lope bbb".toList] :=
  count_diag_amended [Except.ok "aaa Pene".toList, Except.ok "lope bbb".toList]
    ["Penelope".toList] true [("Penelope".toList, [1])] 0 rfl

/-- C5: with a nonzero page offset the source rebuilds `name2pages` as a
plain dict containing only the names that were found, so `_write_output`'s
`name2pages[name]` lookup raises `KeyError` for any name with no
occurrences; the run aborts instead of collecting the name into the
not-found list.  Here: single name "Ann", a one-page document whose text
never matches, `page_offset = 1`. -/
theorem offset_notfound_keyerror :
    index_names ["Ann".toList] [Except.ok "xyz".toList] true true
      " : ".toList ", ".toList [] 1 = Except.error PyErr.keyError ∧
    index_names ["Ann".toList] [Except.ok "xyz".toList] true true
      " : ".toList ", ".toList [] 0 = Except.ok ([], ["Ann".toList]) :=
  ⟨rfl, rfl⟩

/-- C6 counterexample: the normalizer is not applied identically to names
and page text.  The names-file line "A  B" (with a run of two spaces) is
only simplified, never flattened, while the same page text is flattened to
"A B"; the resulting name then fails to match the page text even though the
page contained exactly the same characters. -/
theorem normalizer_not_identical_cex :
    _get_names ["A  B".toList] true true = (["A  B".toList], []) ∧
    normText "A  B".toList = "A B".toList ∧
    _simplify_text "A  B".toList = "A  B".toList ∧
    normText "A  B".toList ≠ _simplify_text "A  B".toList ∧
    matchName true "A  B".toList (normText "A  B".toList) = false :=
  ⟨rfl, rfl, rfl, by decide, by decide⟩

/-- C6 (amended): only `_simplify_text` is applied to both the names-file
entries and the page text; `_flatten_text` is applied to page text alone.
The two normalization pipelines therefore agree exactly on strings free of
line breaks and double spaces — such as any stripped single line without a
run of spaces — while a name containing a run of spaces does not match page
text with the same artifacts. -/
theorem normalizer_agree_on_clean (s : Str) (hnl : '\n' ∉ s)
    (hsp : containsSub twoSpaces s = false) :
    _simplify_text (_flatten_text s) = _simplify_text s := by
  rw [flatten_of_clean hnl hsp]

/-- C6 witness: the two pipelines agree on the clean string "A B". -/
theorem normalizer_agree_on_clean_witness :
    _simplify_text (_flatten_text "A B".toList) = _simplify_text "A B".toList :=
  normalizer_agree_on_clean "A B".toList (by decide) (by decide)

theorem stepEffect_inv {ci : Bool} {pPrev pCur : Int} {tPrev tCur : Str} {n : Str}
    {l : List Int}
    (hlink : (pPrev + 1 = pCur ∧ 1 ≤ pPrev) ∨ (pPrev = -1 ∧ tPrev = ([] : Str) ∧ pCur = 1))
    (hchain : List.Chain' (· < ·) l) (hbound : ∀ x ∈ l, 1 ≤ x ∧ x ≤ pPrev) :
    List.Chain' (· < ·) (stepEffect ci pPrev tPrev tCur pCur n l) ∧
    ∀ x ∈ stepEffect ci pPrev tPrev tCur pCur n l, 1 ≤ x ∧ x ≤ pCur := by
  have hlt : pPrev < pCur := by rcases hlink with ⟨h1, h2⟩ | ⟨h1, h2, h3⟩ <;> omega
  have hc1 : 1 ≤ pCur := by rcases hlink with ⟨h1, h2⟩ | ⟨h1, h2, h3⟩ <;> omega
  unfold stepEffect
  split_ifs with h1 h2
  · constructor
    · rw [List.chain'_append]
      refine ⟨hchain, List.chain'_singleton _, ?_⟩
      intro x hx y hy
      have hxl : x ∈ l := List.mem_of_mem_getLast? hx
      have hy' : pCur = y := by simpa using hy
      subst hy'
      exact lt_of_le_of_lt (hbound x hxl).2 hlt
    · intro x hx
      rcases List.mem_append.mp hx with hx | hx
      · have := hbound x hx; omega
      · rw [List.mem_singleton] at hx; subst hx; omega
  · have hpp : ¬(pPrev = -1 ∧ tPrev = ([] : Str)) := by
      rintro ⟨hp, ht⟩
      rw [ht, List.nil_append] at h2
      exact h1 h2.2
    have hp1 : 1 ≤ pPrev := by
      rcases hlink with ⟨ha, hb⟩ | ⟨ha, hb, hc⟩
      · exact hb
      · exact absurd ⟨ha, hb⟩ hpp
    constructor
    · rw [List.chain'_append]
      refine ⟨hchain, List.chain'_singleton _, ?_⟩
      intro x hx y hy
      have hxl : x ∈ l := List.mem_of_mem_getLast? hx
      have hy' : pPrev = y := by simpa using hy
      subst hy'
      have hxb := (hbound x hxl).2
      have hxne : x ≠ pPrev := fun heq => h2.1 (heq ▸ hxl)
      omega
    · intro x hx
      rcases List.mem_append.mp hx with hx | hx
      · have := hbound x hx; omega
      · rw [List.mem_singleton] at hx; subst hx; omega
  · refine ⟨hchain, fun x hx => ?_⟩
    have := hbound x hx; omega

theorem processPage_inv {ci : Bool} {dictNames : List Str} (hnd : dictNames.Nodup)
    {pPrev pCur : Int} {tPrev tCur : Str} {st : PageMap × Nat}
    (hlink : (pPrev + 1 = pCur ∧ 1 ≤ pPrev) ∨ (pPrev = -1 ∧ tPrev = ([] : Str) ∧ pCur = 1))
    (hinv : ∀ n, List.Chain' (· < ·) (ddGet st.1 n) ∧
      ∀ x ∈ ddGet st.1 n, 1 ≤ x ∧ x ≤ pPrev) :
    ∀ n, List.Chain' (· < ·) (ddGet (processPage ci dictNames pPrev tPrev tCur pCur st).1 n) ∧
      ∀ x ∈ ddGet (processPage ci dictNames pPrev tPrev tCur pCur st).1 n,
        1 ≤ x ∧ x ≤ pCur := by
  intro n
  have hlt : pPrev < pCur := by rcases hlink with ⟨h1, h2⟩ | ⟨h1, h2, h3⟩ <;> omega
  unfold processPage
  rw [ddGet_foldl_stepName _ _ _ _ _ _ _ _ hnd]
  split_ifs with hmem
  · exact stepEffect_inv hlink (hinv n).1 (hinv n).2
  · exact ⟨(hinv n).1, fun x hx => by have := (hinv n).2 x hx; omega⟩

theorem parseNamesGo_inv (ci : Bool) (dictNames : List Str) (hnd : dictNames.Nodup) :
    ∀ (rest : List (Except Unit Str)) (pPrev : Int) (tPrev : Str) (st : PageMap × Nat)
      (pCur : Int) (m : PageMap) (c : Nat),
      ((pPrev + 1 = pCur ∧ 1 ≤ pPrev) ∨ (pPrev = -1 ∧ tPrev = ([] : Str) ∧ pCur = 1)) →
      (∀ n, List.Chain' (· < ·) (ddGet st.1 n) ∧ ∀ x ∈ ddGet st.1 n, 1 ≤ x ∧ x ≤ pPrev) →
      parseNamesGo ci dictNames rest pPrev tPrev st pCur = Except.ok (m, c) →
      ∀ n, List.Chain' (· < ·) (ddGet m n) ∧
        ∀ x ∈ ddGet m n, 1 ≤ x ∧ x < pCur + rest.length := by
  intro rest
  induction rest with
  | nil =>
    intro pPrev tPrev st pCur m c hlink hinv h n
    have hlt : pPrev < pCur := by rcases hlink with ⟨h1, h2⟩ | ⟨h1, h2, h3⟩ <;> omega
    simp only [parseNamesGo, Except.ok.injEq] at h
    subst h
    refine ⟨(hinv n).1, fun x hx => ?_⟩
    have := (hinv n).2 x hx
    simp only [List.length_nil]
    push_cast
    omega
  | cons pg rest ih =>
    intro pPrev tPrev st pCur m c hlink hinv h n
    cases pg with
    | error u => simp only [parseNamesGo] at h; simp at h
    | ok raw =>
      simp only [parseNamesGo] at h
      have hlink' : ((pCur + 1 = pCur + 1 ∧ 1 ≤ pCur) ∨
          (pCur = -1 ∧ normText raw = ([] : Str) ∧ pCur + 1 = 1)) := by
        left
        refine ⟨rfl, ?_⟩
        rcases hlink with ⟨h1, h2⟩ | ⟨h1, h2, h3⟩ <;> omega
      have hnext := ih pCur (normText raw) _ (pCur + 1) m c hlink'
        (processPage_inv hnd hlink hinv) h
      refine ⟨(hnext n).1, fun x hx => ?_⟩
      have := (hnext n).2 x hx
      simp only [List.length_cons] at *
      push_cast at *
      omega

/-- C7: occurrence-map invariant.  For every successful scan, every name's
recorded page list is strictly increasing (hence ordered and duplicate-free)
and consists of genuine page numbers between 1 and the number of pages; in
particular the `-1` placeholder for the previous page never appears in any
list, and a one-page document can only ever record page 1.  (Quantifying
over all page lists covers the state after each processed page, since the
scan of a prefix of the pages is itself a run of `_parse_names`.) -/
theorem occurrence_map_invariant (pages : List (Except Unit Str)) (names : List Str)
    (ci : Bool) (m : PageMap) (c : Nat)
    (h : _parse_names pages names ci = Except.ok (m, c)) (name : Str) :
    List.Chain' (· < ·) (ddGet m name) ∧
    ∀ x ∈ ddGet m name, 1 ≤ x ∧ x ≤ (pages.length : Int) := by
  unfold _parse_names at h
  have hres := parseNamesGo_inv ci (dedupKeep names) (dedupKeep_nodup names) pages
    (-1) [] ([], 0) 1 m c (Or.inr ⟨rfl, rfl, rfl⟩)
    (fun n => ⟨by simp [ddGet], by simp [ddGet]⟩) h name
  refine ⟨hres.1, fun x hx => ?_⟩
  have := hres.2 x hx
  omega

/-- C7 witness: the invariant at the concrete "Penelope" two-page run. -/
theorem occurrence_map_invariant_witness :
    List.Chain' (· < ·) (ddGet [("Penelope".toList, [1])] "Penelope".toList) ∧
    ∀ x ∈ ddGet [("Penelope".toList, [1])] "Penelope".toList,
      1 ≤ x ∧ x ≤ (([Except.ok "aaa Pene".toList,
        Except.ok "lope bbb".toList] : List (Except Unit Str)).length : Int) :=
  occurrence_map_invariant [Except.ok "aaa Pene".toList, Except.ok "lope bbb".toList]
    ["Penelope".toList] true [("Penelope".toList, [1])] 0 rfl "Penelope".toList

theorem parseNamesGo_error (ci : Bool) (dictNames : List Str) :
    ∀ (rest : List (Except Unit Str)) (pPrev : Int) (tPrev : Str) (st : PageMap × Nat)
      (pCur : Int), Except.error () ∈ rest →
      parseNamesGo ci dictNames rest pPrev tPrev st pCur = Except.error PyErr.extraction := by
  intro rest
  induction rest with
  | nil => intro _ _ _ _ h; cases h
  | cons pg rest ih =>
    intro pPrev tPrev st pCur h
    cases pg with
    | error u => rfl
    | ok raw =>
      rcases List.mem_cons.mp h with heq | hmem
      · exact Except.noConfusion heq
      · exact ih _ _ _ _ hmem

/-- C9: no partial output on extraction failure.  In the source all writing
to the primary output happens inside `_write_output`, which `index_names`
calls only after `_parse_names` has consumed every page; if extracting any
page raises, the error propagates before any write, so the run yields the
extraction error and no output lines. -/
theorem no_partial_output_on_failure (nameLines : List Str) (pages : List (Except Unit Str))
    (sort ci : Bool) (sep psep pre : Str) (off : Int)
    (h : Except.error () ∈ pages) :
    index_names nameLines pages sort ci sep psep pre off = Except.error PyErr.extraction := by
  have hp : _parse_names pages (_get_names nameLines sort ci).1 ci =
      Except.error PyErr.extraction :=
    parseNamesGo_error ci _ pages (-1) [] ([], 0) 1 h
  simp only [index_names]
  rw [hp]

/-- C9 witness: a document whose only page fails to extract produces the
extraction error (and hence no output lines). -/
theorem no_partial_output_on_failure_witness :
    index_names ["Ann".toList] [Except.error ()] true true
      " : ".toList ", ".toList [] 0 = Except.error PyErr.extraction :=
  no_partial_output_on_failure ["Ann".toList] [Except.error ()] true true
    " : ".toList ", ".toList [] 0 (List.mem_singleton.mpr rfl)

/-- C8: page filter membership of the spec-modelled `PagesIncludedSpecs`.
An absent or empty specification includes every page; a well-formed parsed
specification includes a page iff the page equals some listed single integer
or lies within some listed inclusive range; and the spec's example
"1,11..79,400..450" includes page 1, excludes 10, includes all of 11..79,
excludes 80 and includes all of 400..450. -/
theorem pages_included_membership :
    (∀ p, pagesIncluded none p = some true) ∧
    (∀ p, pagesIncluded (some []) p = some true) ∧
    (∀ (s : Str) (items : List PageSpecItem) (p : Nat), parsePagesSpec? s = some items →
      s ≠ [] →
      (pagesIncluded (some s) p = some true ↔
        ∃ it ∈ items, (match it with
          | PageSpecItem.exact n => p = n
          | PageSpecItem.range lo hi => lo ≤ p ∧ p ≤ hi))) ∧
    (pagesIncluded (some "1,11..79,400..450".toList) 1 = some true ∧
      pagesIncluded (some "1,11..79,400..450".toList) 10 = some false ∧
      (∀ p, 11 ≤ p → p ≤ 79 → pagesIncluded (some "1,11..79,400..450".toList) p = some true) ∧
      pagesIncluded (some "1,11..79,400..450".toList) 80 = some false ∧
      (∀ p, 400 ≤ p → p ≤ 450 →
        pagesIncluded (some "1,11..79,400..450".toList) p = some true)) := by
  have hmix : parsePagesSpec? "1,11..79,400..450".toList =
      some [PageSpecItem.exact 1, PageSpecItem.range 11 79, PageSpecItem.range 400 450] := by
    decide
  refine ⟨fun p => rfl, fun p => rfl, ?_, by decide, by decide, ?_, by decide, ?_⟩
  · intro s items p hparse hs
    simp only [pagesIncluded, if_neg hs, hparse, Option.map_some', Option.some.injEq]
    rw [List.any_eq_true]
    constructor
    · rintro ⟨it, hit, hm⟩
      refine ⟨it, hit, ?_⟩
      cases it <;> simpa [itemMember] using hm
    · rintro ⟨it, hit, hm⟩
      refine ⟨it, hit, ?_⟩
      cases it <;> simpa [itemMember] using hm
  · intro p h1 h2
    simp only [pagesIncluded, if_neg (by decide : ¬"1,11..79,400..450".toList = []),
      hmix, Option.map_some', Option.some.injEq]
    simp only [List.any_cons, List.any_nil, itemMember, Bool.or_eq_true, decide_eq_true_eq,
      Bool.or_false]
    omega
  · intro p h1 h2
    simp only [pagesIncluded, if_neg (by decide : ¬"1,11..79,400..450".toList = []),
      hmix, Option.map_some', Option.some.injEq]
    simp only [List.any_cons, List.any_nil, itemMember, Bool.or_eq_true, decide_eq_true_eq,
      Bool.or_false]
    omega

/-- C8 witness: page 50 is included by the example specification. -/
theorem pages_included_membership_witness :
    pagesIncluded (some "1,11..79,400..450".toList) 50 = some true :=
  pages_included_membership.2.2.2.2.2.1 50 (by decide) (by decide)
